import Mathlib

/-!
Verification development for the picture-project version artifact engine.

The Python sources under `service/` are shallowly embedded below:
  * `service/pixel_diff.py`   — pixel-difference engine and its dual codec,
  * `service/transformer.py`  — transform engine and its dual codec,
  * `service/reconstructor.py`— chain reconstruction,
  * `service/index_db.py`     — the version index document.

NumPy machine integers are modelled as `Int` with explicit wrap-around
(`wrap8`, `wrap16`, `wrapU8`) applied exactly where the code performs an
`astype` or an arithmetic operation on a fixed-width dtype.  External
collaborators (PIL resampling, cv2 warping, cv2 feature detection and
matching) are modelled as explicit oracle parameters: the embedded
functions are universally quantified over them, which states that the
verified properties hold for every behaviour of the collaborator.
Fallible Python code (exceptions) is embedded with `Except`.
-/

/-- Two-complement wrap of an `Int` into the int8 range, the effect of
`ndarray.astype(np.int8)` on an integer value. -/
def wrap8 (v : Int) : Int := ((v + 128) % 256) - 128

/-- Two-complement wrap of an `Int` into the int16 range, the effect of
`ndarray.astype(np.int16)` and of int16 arithmetic in NumPy. -/
def wrap16 (v : Int) : Int := ((v + 32768) % 65536) - 32768

/-- Wrap of an `Int` into the uint8 range, the effect of
`ndarray.astype(np.uint8)`. -/
def wrapU8 (v : Int) : Int := v % 256

/-- Integer clamp, the effect of `np.clip(v, lo, hi)`. -/
def clipI (lo hi v : Int) : Int := max lo (min hi v)

/-- Split a list into `cnt` consecutive chunks of `sz` elements each
(row-major reshaping, as `ndarray.tolist` does). -/
def chunks (cnt sz : Nat) (d : List α) : List (List α) :=
  match cnt with
  | 0 => []
  | n + 1 => d.take sz :: chunks n sz (d.drop sz)

/-- Lookup in an association list, the first binding of the key wins
(Python `dict.__getitem__` on the insertion-ordered dict model). -/
def alookup [DecidableEq κ] : List (κ × β) → κ → Option β
  | [], _ => none
  | (k, v) :: t, q => if k = q then some v else alookup t q

/-- Set a key in an association list: replace the first binding in place if
the key is present, append otherwise (Python `dict.__setitem__`). -/
def aset [DecidableEq κ] : List (κ × β) → κ → β → List (κ × β)
  | [], k, v => [(k, v)]
  | (k₀, v₀) :: t, k, v => if k₀ = k then (k, v) :: t else (k₀, v₀) :: aset t k v

/-! ## Data model: rasters and difference matrices -/

/-- NumPy dtypes appearing in the engine. -/
inductive DType where
  | int8
  | int16
  | float32
deriving DecidableEq, Repr

/-- A dense NumPy array of signed integers: dtype tag, shape, and the
row-major flattened data.  Pixel-difference matrices are such arrays of
shape `[h, w, 3]`. -/
structure DiffMatrix where
  dtype : DType
  shape : List Nat
  data : List Int
deriving DecidableEq, Repr

/-- Smallest value representable in a dtype. -/
def DType.minVal : DType → Int
  | .int8 => -128
  | .int16 => -32768
  | .float32 => 0

/-- Largest value representable in a dtype. -/
def DType.maxVal : DType → Int
  | .int8 => 127
  | .int16 => 32767
  | .float32 => 0

/-- Well-formedness of a difference matrix: an integer dtype, data of the
length dictated by the shape, every element within the dtype's range. -/
def DiffMatrix.WF (m : DiffMatrix) : Prop :=
  (m.dtype = .int8 ∨ m.dtype = .int16) ∧
  m.data.length = m.shape.prod ∧
  ∀ v ∈ m.data, m.dtype.minVal ≤ v ∧ v ≤ m.dtype.maxVal

/-- An 8-bit RGB raster: height, width, and the row-major flattened channel
values (`h * w * 3` of them).  This is what `np.array(img.convert('RGB'))`
yields, with the uint8 values read as mathematical integers. -/
structure Raster where
  h : Nat
  w : Nat
  data : List Int
deriving DecidableEq, Repr

/-- Well-formedness of a raster: uint8 channel values, one triple per pixel. -/
def Raster.WF (r : Raster) : Prop :=
  r.data.length = r.h * r.w * 3 ∧ ∀ v ∈ r.data, 0 ≤ v ∧ v < 256

/-- A resampling oracle standing for `PIL.Image.resize`: given a raster and
a target width and height it produces the resampled raster.  The engine
never inspects how it resamples. -/
def ResizeOracle : Type := Raster → Nat → Nat → Raster

/-- An oracle is admissible when it returns a well-formed raster of the
requested dimensions, which `PIL.Image.resize` always does. -/
def ResizeOracle.OK (rz : ResizeOracle) : Prop :=
  ∀ r tw th, (rz r tw th).h = th ∧ (rz r tw th).w = tw ∧ (rz r tw th).WF

/-! ## Pixel-Diff engine: compute (`pixel_diff.py`, `compute_pixel_difference_matrix`) -/

/-- Minimum of a difference array, `np.min` on the nonempty list `v :: rest`. -/
def listMin (v : Int) (rest : List Int) : Int := rest.foldl min v

/-- Maximum of a difference array, `np.max` on the nonempty list `v :: rest`. -/
def listMax (v : Int) (rest : List Int) : Int := rest.foldl max v

/-- The raster actually differenced against the original: the edited raster
itself when the sizes agree (`orig_img.size != edit_img.size` is false), its
resampling to the original's size otherwise. -/
def editedForDiff (rz : ResizeOracle) (orig edited : Raster) : Raster :=
  if orig.w = edited.w ∧ orig.h = edited.h then edited else rz edited orig.w orig.h

/-- The true int16 difference `edited - original`, element by element, the
reference value the narrowing must never alter. -/
def rawPixelDiff (rz : ResizeOracle) (orig edited : Raster) : List Int :=
  List.zipWith (fun e o => e - o) (editedForDiff rz orig edited).data orig.data

/-- Embedding of `compute_pixel_difference_matrix`.  Both inputs are already
RGB rasters (the PIL loading and `convert('RGB')` prelude); `rz` stands for
the LANCZOS resampling used when the sizes differ.  The difference is taken
in int16 arithmetic; `np.min` of a zero-size array raises `ValueError`,
embedded as `Except.error`; the result is narrowed to int8 exactly when
every element lies in `[-128, 127]`. -/
def compute_pixel_difference_matrix (rz : ResizeOracle) (orig edited : Raster) :
    Except String DiffMatrix :=
  let d := List.zipWith (fun e o => wrap16 (e - o)) (editedForDiff rz orig edited).data orig.data
  match d with
  | [] => .error "zero-size array to reduction operation minimum which has no identity"
  | v :: rest =>
    if -128 ≤ listMin v rest ∧ listMax v rest ≤ 127 then
      .ok ⟨.int8, [orig.h, orig.w, 3], (v :: rest).map wrap8⟩
    else
      .ok ⟨.int16, [orig.h, orig.w, 3], (v :: rest).map wrap16⟩

/-! ## Transform engine: matrices (`transformer.py`) -/

/-- A 3x3 matrix of exact scalars standing for the float32 homogeneous
transform matrices.  Fields are listed row-major: `m00 m01 m02 / m10 ...`. -/
@[ext]
structure M3 where
  m00 : ℚ
  m01 : ℚ
  m02 : ℚ
  m10 : ℚ
  m11 : ℚ
  m12 : ℚ
  m20 : ℚ
  m21 : ℚ
  m22 : ℚ
deriving DecidableEq, Repr

/-- A 2x3 affine matrix, the shape returned by `cv2.estimateAffinePartial2D`. -/
structure M23 where
  a00 : ℚ
  a01 : ℚ
  a02 : ℚ
  a10 : ℚ
  a11 : ℚ
  a12 : ℚ
deriving DecidableEq, Repr

/-- Identity matrix, `np.eye(3, dtype=np.float32)`. -/
def eye3 : M3 := ⟨1, 0, 0, 0, 1, 0, 0, 0, 1⟩

/-- Matrix product, `np.dot` on two 3x3 matrices. -/
def matMul (A B : M3) : M3 :=
  ⟨A.m00 * B.m00 + A.m01 * B.m10 + A.m02 * B.m20,
   A.m00 * B.m01 + A.m01 * B.m11 + A.m02 * B.m21,
   A.m00 * B.m02 + A.m01 * B.m12 + A.m02 * B.m22,
   A.m10 * B.m00 + A.m11 * B.m10 + A.m12 * B.m20,
   A.m10 * B.m01 + A.m11 * B.m11 + A.m12 * B.m21,
   A.m10 * B.m02 + A.m11 * B.m12 + A.m12 * B.m22,
   A.m20 * B.m00 + A.m21 * B.m10 + A.m22 * B.m20,
   A.m20 * B.m01 + A.m21 * B.m11 + A.m22 * B.m21,
   A.m20 * B.m02 + A.m21 * B.m12 + A.m22 * B.m22⟩

/-- Embedding of `np.vstack([matrix, [0, 0, 1]])`: a 2x3 affine result
completed to a 3x3 homogeneous matrix. -/
def homogOf (m : M23) : M3 := ⟨m.a00, m.a01, m.a02, m.a10, m.a11, m.a12, 0, 0, 1⟩

/-- Top two rows of a homogeneous matrix, `matrix[:2]` as passed to
`cv2.warpAffine`. -/
def topTwo (m : M3) : M23 := ⟨m.m00, m.m01, m.m02, m.m10, m.m11, m.m12⟩

/-- Product of a list of matrices with the head outermost:
`[A, B, C] ↦ A * (B * (C * I))`. -/
def matListProd (l : List M3) : M3 := l.foldr matMul eye3

/-- Channel reversal of every pixel triple: `cv2.cvtColor(..., RGB2BGR)` and
its inverse `BGR2RGB` (the same permutation). -/
def swapRB (r : Raster) : Raster :=
  ⟨r.h, r.w, ((chunks (r.h * r.w) 3 r.data).map List.reverse).flatten⟩

/-- A warping oracle standing for `cv2.warpAffine`: input raster, the top
two rows of the matrix, and the requested output width and height. -/
def WarpOracle : Type := Raster → M23 → Nat → Nat → Raster

/-- Embedding of `apply_transformation_matrix` (`transformer.py`): convert
the raster to BGR, warp it through `matrix[:2]` at the input's size, and
convert back to RGB. -/
def apply_transformation_matrix (warp : WarpOracle) (img : Raster) (m : M3) : Raster :=
  swapRB (warp (swapRB img) (topTwo m) img.w img.h)

/-- One feature match as reported by `cv2.BFMatcher.match`: indices into the
two keypoint lists and the Hamming distance of the descriptors. -/
structure MatchRec where
  queryIdx : Nat
  trainIdx : Nat
  distance : ℚ
deriving DecidableEq, Repr

/-- Sorting of matches by ascending distance, `sorted(matches, key=lambda
x: x.distance)`. -/
def sortMatches (ms : List MatchRec) : List MatchRec :=
  ms.insertionSort (fun a b => a.distance ≤ b.distance)

/-- Everything `compute_transformation_matrix` obtains from cv2 about one
pair of images: the ORB descriptors of each grayscale image (`None` when
detection yields nothing usable), the keypoint coordinates, the brute-force
matcher, and the robust affine estimator (`None` when it produces no
matrix).  Descriptors are left opaque (`Nat` tokens). -/
structure VisionOracle where
  des1 : Option (List Nat)
  des2 : Option (List Nat)
  kp1 : List (ℚ × ℚ)
  kp2 : List (ℚ × ℚ)
  matchFn : List Nat → List Nat → List MatchRec
  estimateFn : List (ℚ × ℚ) → List (ℚ × ℚ) → Option M23

/-- Source points handed to the estimator: keypoint coordinates of the ten
best matches, `kp1[m.queryIdx].pt for m in matches[:10]`. -/
def srcPoints (o : VisionOracle) (d1 d2 : List Nat) : List (ℚ × ℚ) :=
  ((sortMatches (o.matchFn d1 d2)).take 10).map (fun m => o.kp1.getD m.queryIdx (0, 0))

/-- Destination points handed to the estimator, `kp2[m.trainIdx].pt`. -/
def dstPoints (o : VisionOracle) (d1 d2 : List Nat) : List (ℚ × ℚ) :=
  ((sortMatches (o.matchFn d1 d2)).take 10).map (fun m => o.kp2.getD m.trainIdx (0, 0))

/-- Embedding of `compute_transformation_matrix` (`transformer.py`).  The
image loading and grayscale conversion are part of the oracle.  Identity is
returned when either descriptor set is missing, when fewer than 4 matches
exist, or when the estimator returns no matrix; otherwise the 2x3
estimate is completed to a homogeneous 3x3 matrix. -/
def compute_transformation_matrix (o : VisionOracle) : M3 :=
  match o.des1, o.des2 with
  | some d1, some d2 =>
    let ms := sortMatches (o.matchFn d1 d2)
    if ms.length < 4 then eye3
    else
      match o.estimateFn (srcPoints o d1 d2) (dstPoints o d1 d2) with
      | none => eye3
      | some m => homogOf m
  | _, _ => eye3

/-! ## Pixel-Diff engine: apply (`pixel_diff.py`, `apply_pixel_difference_matrix`) -/

/-- A nearest-neighbour resampling oracle for the shape-mismatch
compatibility path: it receives the shifted uint8 rendering of the diff,
its shape, and the target width and height, and returns the resampled
uint8 data (`PIL.Image.resize(..., NEAREST)`). -/
def NearestOracle : Type := List Int → List Nat → Nat → Nat → List Int

/-- Conversion of a `(3, 3)` artifact to a transform matrix,
`diff_array.astype(np.float32)` on its nine entries (exact for int16-range
integers). -/
def m3OfDiff (m : DiffMatrix) : M3 :=
  ⟨(m.data.getD 0 0 : Int), (m.data.getD 1 0 : Int), (m.data.getD 2 0 : Int),
   (m.data.getD 3 0 : Int), (m.data.getD 4 0 : Int), (m.data.getD 5 0 : Int),
   (m.data.getD 6 0 : Int), (m.data.getD 7 0 : Int), (m.data.getD 8 0 : Int)⟩

/-- Embedding of `apply_pixel_difference_matrix` (`pixel_diff.py`), with the
difference matrix already in hand (the path-loading prelude is separate).
A two-dimensional `(3, 3)` array is routed to the transform engine; an int8
diff is widened to int16; a shape mismatch triggers the lossy resample
shim; otherwise the diff is added to the original in int16 arithmetic,
clipped to `[0, 255]`, and narrowed to uint8. -/
def apply_pixel_difference_matrix (warp : WarpOracle) (nn : NearestOracle)
    (orig : Raster) (diff : DiffMatrix) : Raster :=
  if diff.shape.length = 2 ∧ diff.shape = [3, 3] then
    apply_transformation_matrix warp orig (m3OfDiff diff)
  else
    let d16 := if diff.dtype = .int8 then diff.data.map wrap16 else diff.data
    let dFinal :=
      if [orig.h, orig.w, 3] = diff.shape then d16
      else
        let shifted := d16.map (fun v => wrapU8 (clipI 0 255 (v + 128)))
        (nn shifted diff.shape orig.w orig.h).map (fun u => wrap16 (u - 128))
    ⟨orig.h, orig.w,
     List.zipWith (fun o dv => wrapU8 (clipI 0 255 (wrap16 (o + dv)))) orig.data dFinal⟩

/-! ## Reconstructor (`reconstructor.py`) -/

/-- Embedding of `reconstruct_from_chain` with the matrices already loaded:
an empty chain returns the original raster without any warp; otherwise the
matrices are folded into one accumulator, each new matrix left-multiplied,
and the accumulated matrix is applied exactly once. -/
def reconstruct_from_chain (warp : WarpOracle) (orig : Raster) (ms : List M3) : Raster :=
  match ms with
  | [] => orig
  | m :: rest =>
    apply_transformation_matrix warp orig (rest.foldl (fun acc mi => matMul mi acc) m)

/-! ## Artifact codec (`pixel_diff.py` and `transformer.py` save/load) -/

/-- A file path split as `pathlib` sees it: everything before the last
suffix, and the last suffix (including the dot, possibly empty). -/
structure FPath where
  base : String
  ext : String
deriving DecidableEq, Repr

/-- Embedding of `Path.with_suffix`: replace the last suffix. -/
def withExt (p : FPath) (e : String) : FPath := ⟨p.base, e⟩

/-- Path actually written by `np.savez_compressed`, which appends `.npz`
when the given filename does not already end in it. -/
def savezTarget (p : FPath) : FPath :=
  if p.ext = ".npz" then p else ⟨p.base ++ p.ext, ".npz"⟩

/-- Content of one artifact file in the diff codec: either a compressed NPZ
container holding one named array, or the legacy JSON text, a depth-3
nested list of integers as produced by `tolist` on an `(h, w, c)` array. -/
inductive DFile where
  | npz (key : String) (m : DiffMatrix)
  | txt (rows : List (List (List Int)))
deriving DecidableEq, Repr

/-- The file store the diff codec reads and writes, keyed by path. -/
def DStore : Type := List (FPath × DFile)

/-- Embedding of `ndarray.tolist` for the `(h, w, c)` arrays the diff codec
serializes: row-major chunking into a depth-3 nested list. -/
def tolist3 (m : DiffMatrix) : List (List (List Int)) :=
  match m.shape with
  | [h, w, c] => (chunks h (w * c) m.data).map (chunks w c)
  | _ => []

/-- Shape inferred by `np.array` from a regular depth-3 nested list, with
the trailing dimensions collapsing when an outer level is empty. -/
def inferShape3 (rows : List (List (List Int))) : List Nat :=
  match rows with
  | [] => [0]
  | r :: _ =>
    match r with
    | [] => [rows.length, 0]
    | c :: _ => [rows.length, r.length, c.length]

/-- Flattening of a depth-3 nested list back to row-major data. -/
def flat3 (rows : List (List (List Int))) : List Int :=
  (rows.map List.flatten).flatten

/-- Load-time re-narrowing: `astype(np.int8)` applied to an int16 array
whenever `np.all((matrix >= -128) & (matrix <= 127))` (true on an empty
array). -/
def renarrow (m : DiffMatrix) : DiffMatrix :=
  if m.dtype = .int16 ∧ ∀ v ∈ m.data, -128 ≤ v ∧ v ≤ 127 then
    ⟨.int8, m.shape, m.data.map wrap8⟩
  else m

/-- Embedding of `save_pixel_difference_matrix`: a `.json` path gets the
legacy text encoding of `tolist`; any other path gets a compressed NPZ
under the key `diff_matrix`, with an int8 matrix first widened to int16 by
`astype(np.int16)`. -/
def save_pixel_difference_matrix (m : DiffMatrix) (p : FPath) (fs : DStore) : DStore :=
  if p.ext = ".json" then aset fs p (.txt (tolist3 m))
  else
    let st := if m.dtype = .int8 then DiffMatrix.mk .int16 m.shape (m.data.map wrap16) else m
    aset fs (savezTarget p) (.npz "diff_matrix" st)

/-- Embedding of `load_pixel_difference_matrix`: the `.npz` sibling is
tried first (our NPZ containers hold exactly one array, so the
`diff_matrix` key and the sole-array fallback agree); then the `.json`
sibling, parsed as int16; both re-narrow to int8 when every value fits;
with neither sibling present a not-found error names both paths. -/
def load_pixel_difference_matrix (fs : DStore) (p : FPath) : Except String DiffMatrix :=
  let np := if p.ext = ".npz" then p else withExt p ".npz"
  match alookup fs np with
  | some (.npz _ m) => .ok (renarrow m)
  | some (.txt _) => .error "not an npz container"
  | none =>
    let jp := if p.ext = ".json" then p else withExt p ".json"
    match alookup fs jp with
    | some (.txt rows) =>
      .ok (renarrow ⟨.int16, inferShape3 rows, (flat3 rows).map wrap16⟩)
    | some (.npz _ _) => .error "not a text artifact"
    | none => .error "Matrix file not found (tried .npz and .json)"

/-- A stored transform matrix: dtype tag, shape, row-major data.  The
scalar type is left abstract — both codecs only move the values, and both
channels (binary bits, shortest-roundtrip decimal text) are lossless for
float32. -/
structure TMat (α : Type) where
  dtype : DType
  shape : List Nat
  data : List α
deriving DecidableEq, Repr

/-- Content of one artifact file in the transform codec. -/
inductive TFile (α : Type) where
  | npz (key : String) (m : TMat α)
  | txt (rows : List (List α))
deriving DecidableEq, Repr

/-- The file store the transform codec reads and writes. -/
def TStore (α : Type) : Type := List (FPath × TFile α)

/-- Embedding of `ndarray.tolist` for the `(r, c)` arrays the transform
codec serializes. -/
def tolist2 (m : TMat α) : List (List α) :=
  match m.shape with
  | [r, c] => chunks r c m.data
  | _ => []

/-- Shape inferred by `np.array` from a regular depth-2 nested list. -/
def inferShape2 (rows : List (List α)) : List Nat :=
  match rows with
  | [] => [0]
  | r :: _ => [rows.length, r.length]

/-- Embedding of `save_transformation_matrix`: legacy text for `.json`
paths, a compressed NPZ under the key `matrix` otherwise. -/
def save_transformation_matrix (m : TMat α) (p : FPath) (fs : TStore α) : TStore α :=
  if p.ext = ".json" then aset fs p (.txt (tolist2 m))
  else aset fs (savezTarget p) (.npz "matrix" m)

/-- Embedding of `load_transformation_matrix`: `.npz` sibling first
(returned as stored), then the `.json` sibling parsed with
`dtype=np.float32`, else a not-found error. -/
def load_transformation_matrix (fs : TStore α) (p : FPath) : Except String (TMat α) :=
  let np := if p.ext = ".npz" then p else withExt p ".npz"
  match alookup fs np with
  | some (.npz _ m) => .ok m
  | some (.txt _) => .error "not an npz container"
  | none =>
    let jp := if p.ext = ".json" then p else withExt p ".json"
    match alookup fs jp with
    | some (.txt rows) => .ok ⟨.float32, inferShape2 rows, rows.flatten⟩
    | some (.npz _ _) => .error "not a text artifact"
    | none => .error "Matrix file not found (tried .npz and .json)"

/-! ## Version index (`index_db.py`) -/

/-- One collection's entry in the index document: the recorded versions and
the edge-key-to-artifact-path mapping, both insertion-ordered. -/
structure ImageEntry where
  versions : List Int
  matrices : List (String × String)
deriving DecidableEq, Repr

/-- The index document, `{"images": {stem: entry}}`. -/
structure IndexDoc where
  images : List (String × ImageEntry)
deriving DecidableEq, Repr

/-- Default entry installed by `setdefault`. -/
def emptyEntry : ImageEntry := ⟨[], []⟩

/-- Entry of a stem as `add_image_version` sees it after `setdefault`. -/
def entryOf (idx : IndexDoc) (stem : String) : ImageEntry :=
  (alookup idx.images stem).getD emptyEntry

/-- Python truthiness of an optional string argument: `None` and the empty
string are falsy. -/
def truthyStr : Option String → Bool
  | none => false
  | some s => decide (s ≠ "")

/-- Ascending sort of the versions list, `list.sort()`. -/
def sortVersions (l : List Int) : List Int :=
  l.insertionSort (· ≤ ·)

/-- Embedding of `add_image_version`: ensure the stem's entry exists,
append the version and re-sort when it is absent, set the edge mapping when
both the key and the path are truthy, and return the updated document. -/
def add_image_version (idx : IndexDoc) (stem : String) (version : Int)
    (matrix_key matrix_path : Option String) : IndexDoc :=
  let entry := entryOf idx stem
  let vs :=
    if version ∈ entry.versions then entry.versions
    else sortVersions (entry.versions ++ [version])
  let ms :=
    match matrix_key, matrix_path with
    | some k, some pa =>
      if k ≠ "" ∧ pa ≠ "" then aset entry.matrices k pa else entry.matrices
    | _, _ => entry.matrices
  ⟨aset idx.images stem ⟨vs, ms⟩⟩

/-- Decimal digit value of a character. -/
def digitVal (c : Char) : Option Nat :=
  if c = '0' then some 0 else if c = '1' then some 1 else if c = '2' then some 2
  else if c = '3' then some 3 else if c = '4' then some 4 else if c = '5' then some 5
  else if c = '6' then some 6 else if c = '7' then some 7 else if c = '8' then some 8
  else if c = '9' then some 9 else none

/-- Parse of a nonempty all-digit character list as a natural number. -/
def natOfChars (cs : List Char) : Option Nat :=
  match cs with
  | [] => none
  | _ =>
    cs.foldl
      (fun acc c =>
        match acc, digitVal c with
        | some n, some d => some (n * 10 + d)
        | _, _ => none)
      (some 0)

/-- Parse of an optionally minus-signed integer literal. -/
def intOfChars (cs : List Char) : Option Int :=
  match cs with
  | '-' :: ds => (natOfChars ds).map (fun n => -(n : Int))
  | ds => (natOfChars ds).map (fun n => (n : Int))

/-- True when the character list contains the arrow `->` somewhere. -/
def hasArrow : List Char → Bool
  | '-' :: '>' :: _ => true
  | _ :: rest => hasArrow rest
  | [] => false

/-- Split at the first arrow `->`, refusing strings with more than one
arrow (mirrors matching the split against exactly two parts). -/
def splitArrow : List Char → Option (List Char × List Char)
  | '-' :: '>' :: rest => if hasArrow rest then none else some ([], rest)
  | c :: rest => (splitArrow rest).map (fun pr => (c :: pr.1, pr.2))
  | [] => none

/-- Parse of a canonical edge key `"<from>-><to>"` into its two version
numbers; `none` when the string is not of that form. -/
def parseEdgeKey (k : String) : Option (Int × Int) :=
  match splitArrow k.data with
  | none => none
  | some (a, b) =>
    match intOfChars a, intOfChars b with
    | some f, some t => some (f, t)
    | _, _ => none

/-- Spec invariant on one entry: every key present in `matrices` is an edge
key `"from->to"` whose `to` version appears in `versions`. -/
def entryEdgeInv (e : ImageEntry) : Prop :=
  ∀ k pa, (k, pa) ∈ e.matrices →
    ∃ f t, parseEdgeKey k = some (f, t) ∧ t ∈ e.versions

/-- Spec invariant on the whole document: every collection's entry
satisfies the edge-key invariant. -/
def indexEdgeInv (idx : IndexDoc) : Prop :=
  ∀ s e, alookup idx.images s = some e → entryEdgeInv e

/-- Spec invariant on one versions list: sorted ascending, no duplicates. -/
def versOK (l : List Int) : Prop := l.Sorted (· ≤ ·) ∧ l.Nodup

/-- Spec invariant on the whole document: every collection's versions list
is sorted ascending with no duplicates. -/
def indexVersOK (idx : IndexDoc) : Prop :=
  ∀ s e, alookup idx.images s = some e → versOK e.versions

/-- Edge key that `add_image_version` actually writes, `none` when either
argument is missing or falsy. -/
def effKey (matrix_key matrix_path : Option String) : Option String :=
  match matrix_key, matrix_path with
  | some k, some pa => if k ≠ "" ∧ pa ≠ "" then some k else none
  | _, _ => none

/-! ## Reference values and concrete oracle instances -/

/-- A concrete admissible resampling oracle used to instantiate witnesses:
nearest-neighbour is irrelevant, a black output raster of the requested
size is admissible. -/
def blackResize : ResizeOracle := fun _ tw th => ⟨th, tw, List.replicate (th * tw * 3) 0⟩

/-- A concrete warping oracle for witnesses: return the input raster. -/
def idWarp : WarpOracle := fun r _ _ _ => r

/-- A concrete nearest-neighbour oracle for witnesses: return the input
data unchanged. -/
def idNearest : NearestOracle := fun d _ _ _ => d

/-! ## Helper lemmas -/

theorem wrap8_eq_of_range {v : Int} (h1 : -128 ≤ v) (h2 : v ≤ 127) : wrap8 v = v := by
  unfold wrap8
  have hlo : (0 : Int) ≤ v + 128 := by omega
  have hhi : v + 128 < 256 := by omega
  rw [Int.emod_eq_of_lt hlo hhi]
  omega

theorem wrap16_eq_of_range {v : Int} (h1 : -32768 ≤ v) (h2 : v ≤ 32767) : wrap16 v = v := by
  unfold wrap16
  have hlo : (0 : Int) ≤ v + 32768 := by omega
  have hhi : v + 32768 < 65536 := by omega
  rw [Int.emod_eq_of_lt hlo hhi]
  omega

theorem wrapU8_eq_of_range {v : Int} (h1 : 0 ≤ v) (h2 : v < 256) : wrapU8 v = v := by
  unfold wrapU8
  exact Int.emod_eq_of_lt h1 h2

theorem map_wrap8_eq {l : List Int} (h : ∀ v ∈ l, -128 ≤ v ∧ v ≤ 127) :
    l.map wrap8 = l := by
  induction l with
  | nil => rfl
  | cons x t ih =>
    have hx := h x (List.mem_cons_self x t)
    simp only [List.map_cons, wrap8_eq_of_range hx.1 hx.2,
      ih (fun v hv => h v (List.mem_cons_of_mem x hv))]

theorem map_wrap16_eq {l : List Int} (h : ∀ v ∈ l, -32768 ≤ v ∧ v ≤ 32767) :
    l.map wrap16 = l := by
  induction l with
  | nil => rfl
  | cons x t ih =>
    have hx := h x (List.mem_cons_self x t)
    simp only [List.map_cons, wrap16_eq_of_range hx.1 hx.2,
      ih (fun v hv => h v (List.mem_cons_of_mem x hv))]

theorem chunks_flatten_take (sz : Nat) :
    ∀ (cnt : Nat) (d : List α), (chunks cnt sz d).flatten = d.take (cnt * sz) := by
  intro cnt
  induction cnt with
  | zero => intro d; simp [chunks]
  | succ n ih =>
    intro d
    simp only [chunks, List.flatten_cons, ih]
    rw [Nat.succ_mul, Nat.add_comm (n * sz) sz, List.take_add]

theorem chunks_flatten {cnt sz : Nat} {d : List α} (h : d.length = cnt * sz) :
    (chunks cnt sz d).flatten = d := by
  rw [chunks_flatten_take, ← h, List.take_length]

theorem chunks_mem_take (sz : Nat) :
    ∀ (cnt : Nat) (d : List α) (c : List α), c ∈ chunks cnt sz d → c.take sz = c := by
  intro cnt
  induction cnt with
  | zero => intro d c hc; simp [chunks] at hc
  | succ n ih =>
    intro d c hc
    simp only [chunks, List.mem_cons] at hc
    rcases hc with hc | hc
    · subst hc; rw [List.take_take, Nat.min_self]
    · exact ih _ c hc

theorem flat3_tolist3 {h w c : Nat} {d : List Int} (hlen : d.length = h * (w * c)) :
    flat3 ((chunks h (w * c) d).map (chunks w c)) = d := by
  unfold flat3
  rw [List.map_map]
  have hmap : ∀ ch ∈ chunks h (w * c) d,
      (List.flatten ∘ chunks w c) ch = ch := by
    intro ch hch
    have htk := chunks_mem_take (w * c) h d ch hch
    simp only [Function.comp_apply, chunks_flatten_take]
    exact htk
  rw [List.map_congr_left hmap, List.map_id']
  exact chunks_flatten hlen

theorem alookup_aset_self [DecidableEq κ] (l : List (κ × β)) (k : κ) (v : β) :
    alookup (aset l k v) k = some v := by
  induction l with
  | nil => simp [aset, alookup]
  | cons hd t ih =>
    obtain ⟨k₀, v₀⟩ := hd
    by_cases hk : k₀ = k
    · subst hk; simp [aset, alookup]
    · simp [aset, alookup, hk, ih]

theorem alookup_aset_ne [DecidableEq κ] (l : List (κ × β)) (k q : κ) (v : β)
    (h : q ≠ k) : alookup (aset l k v) q = alookup l q := by
  induction l with
  | nil =>
    simp only [aset, alookup]
    rw [if_neg (fun hh => h hh.symm)]
  | cons hd t ih =>
    obtain ⟨k₀, v₀⟩ := hd
    by_cases hk : k₀ = k
    · subst hk
      simp only [aset, if_pos rfl, alookup]
      rw [if_neg (fun hh => h hh.symm), if_neg (fun hh => h hh.symm)]
    · simp only [aset, if_neg hk, alookup]
      by_cases hq : k₀ = q
      · simp [hq]
      · simp [hq, ih]

theorem mem_aset [DecidableEq κ] (l : List (κ × β)) (k : κ) (v : β) (k₁ : κ) (v₁ : β) :
    (k₁, v₁) ∈ aset l k v → (k₁ = k ∧ v₁ = v) ∨ (k₁, v₁) ∈ l := by
  induction l with
  | nil =>
    intro h
    simp only [aset, List.mem_singleton, Prod.mk.injEq] at h
    exact Or.inl h
  | cons hd t ih =>
    intro h
    obtain ⟨k₀, v₀⟩ := hd
    by_cases hk : k₀ = k
    · subst hk
      simp only [aset, if_true, if_pos, List.mem_cons, Prod.mk.injEq] at h
      rcases h with h | h
      · exact Or.inl h
      · exact Or.inr (List.mem_cons_of_mem _ h)
    · simp only [aset, if_neg hk, List.mem_cons] at h
      rcases h with h | h
      · exact Or.inr (List.mem_cons.mpr (Or.inl h))
      · rcases ih h with h2 | h2
        · exact Or.inl h2
        · exact Or.inr (List.mem_cons_of_mem _ h2)

theorem sortVersions_sorted (l : List Int) : (sortVersions l).Sorted (· ≤ ·) :=
  List.sorted_insertionSort (· ≤ ·) l

theorem sortVersions_perm (l : List Int) : (sortVersions l).Perm l :=
  List.perm_insertionSort (· ≤ ·) l

theorem le_listMin_iff (c v : Int) (rest : List Int) :
    c ≤ listMin v rest ↔ c ≤ v ∧ ∀ x ∈ rest, c ≤ x := by
  unfold listMin
  induction rest generalizing v with
  | nil => simp
  | cons y t ih =>
    simp only [List.foldl_cons, ih, le_min_iff, List.mem_cons]
    constructor
    · rintro ⟨⟨h1, h2⟩, h3⟩
      exact ⟨h1, fun x hx => hx.elim (fun he => he ▸ h2) (h3 x)⟩
    · rintro ⟨h1, h2⟩
      exact ⟨⟨h1, h2 y (Or.inl rfl)⟩, fun x hx => h2 x (Or.inr hx)⟩

theorem listMax_le_iff (c v : Int) (rest : List Int) :
    listMax v rest ≤ c ↔ v ≤ c ∧ ∀ x ∈ rest, x ≤ c := by
  unfold listMax
  induction rest generalizing v with
  | nil => simp
  | cons y t ih =>
    simp only [List.foldl_cons, ih, max_le_iff, List.mem_cons]
    constructor
    · rintro ⟨⟨h1, h2⟩, h3⟩
      exact ⟨h1, fun x hx => hx.elim (fun he => he ▸ h2) (h3 x)⟩
    · rintro ⟨h1, h2⟩
      exact ⟨⟨h1, h2 y (Or.inl rfl)⟩, fun x hx => h2 x (Or.inr hx)⟩

theorem matMul_assoc (A B C : M3) : matMul (matMul A B) C = matMul A (matMul B C) := by
  cases A; cases B; cases C
  simp only [matMul, M3.mk.injEq]
  refine ⟨?_, ?_, ?_, ?_, ?_, ?_, ?_, ?_, ?_⟩ <;> ring

theorem matMul_eye_left (A : M3) : matMul eye3 A = A := by
  cases A
  simp only [matMul, eye3, M3.mk.injEq]
  refine ⟨?_, ?_, ?_, ?_, ?_, ?_, ?_, ?_, ?_⟩ <;> ring

theorem matMul_eye_right (A : M3) : matMul A eye3 = A := by
  cases A
  simp only [matMul, eye3, M3.mk.injEq]
  refine ⟨?_, ?_, ?_, ?_, ?_, ?_, ?_, ?_, ?_⟩ <;> ring

theorem matListProd_append_single (l : List M3) (y : M3) :
    matListProd (l ++ [y]) = matMul (matListProd l) y := by
  induction l with
  | nil => simp [matListProd, matMul_eye_right, matMul_eye_left]
  | cons x t ih =>
    simp only [matListProd, List.cons_append, List.foldr_cons] at ih ⊢
    rw [ih, matMul_assoc]

theorem foldl_chain_eq_prod_reverse (ms : List M3) (m : M3) :
    ms.foldl (fun acc mi => matMul mi acc) m = matMul (matListProd ms.reverse) m := by
  induction ms generalizing m with
  | nil => simp [matListProd, matMul_eye_left]
  | cons y t ih =>
    simp only [List.foldl_cons, List.reverse_cons]
    rw [ih (matMul y m), matListProd_append_single, matMul_assoc]

theorem zipWith_diff_bounds (es os : List Int)
    (he : ∀ v ∈ es, 0 ≤ v ∧ v < 256) (ho : ∀ v ∈ os, 0 ≤ v ∧ v < 256) :
    ∀ x ∈ List.zipWith (fun e o => wrap16 (e - o)) es os, -255 ≤ x ∧ x ≤ 255 := by
  induction es generalizing os with
  | nil => intro x hx; simp at hx
  | cons e et ih =>
    intro x hx
    cases os with
    | nil => simp at hx
    | cons o ot =>
      simp only [List.zipWith_cons_cons, List.mem_cons] at hx
      rcases hx with hx | hx
      · have hee := he e (List.mem_cons_self e et)
        have hoo := ho o (List.mem_cons_self o ot)
        have hw : wrap16 (e - o) = e - o := wrap16_eq_of_range (by omega) (by omega)
        subst hx
        rw [hw]
        omega
      · exact ih ot (fun v hv => he v (List.mem_cons_of_mem e hv))
          (fun v hv => ho v (List.mem_cons_of_mem o hv)) x hx

theorem zipWith_reconstruct (es os : List Int) (hlen : es.length = os.length)
    (he : ∀ v ∈ es, 0 ≤ v ∧ v < 256) (ho : ∀ v ∈ os, 0 ≤ v ∧ v < 256) :
    List.zipWith (fun o dv => wrapU8 (clipI 0 255 (wrap16 (o + dv)))) os
      (List.zipWith (fun e o => wrap16 (e - o)) es os) = es := by
  induction es generalizing os with
  | nil =>
    cases os with
    | nil => rfl
    | cons o ot => simp at hlen
  | cons e et ih =>
    cases os with
    | nil => simp at hlen
    | cons o ot =>
      have hee := he e (List.mem_cons_self e et)
      have hoo := ho o (List.mem_cons_self o ot)
      simp only [List.length_cons, Nat.succ.injEq] at hlen
      have hd : wrap16 (e - o) = e - o := wrap16_eq_of_range (by omega) (by omega)
      have hsum : wrap16 (o + (e - o)) = e := by
        rw [show o + (e - o) = e by ring]
        exact wrap16_eq_of_range (by omega) (by omega)
      have hclip : clipI 0 255 e = e := by unfold clipI; omega
      have hu : wrapU8 e = e := wrapU8_eq_of_range (by omega) (by omega)
      simp only [List.zipWith_cons_cons, hd, hsum, hclip, hu, List.cons.injEq]
      exact ⟨trivial, ih ot hlen (fun v hv => he v (List.mem_cons_of_mem e hv))
        (fun v hv => ho v (List.mem_cons_of_mem o hv))⟩

theorem zipWith_congr_mem {f g : Int → Int → Int} :
    ∀ (l₁ l₂ : List Int), (∀ a ∈ l₁, ∀ b ∈ l₂, f a b = g a b) →
      List.zipWith f l₁ l₂ = List.zipWith g l₁ l₂ := by
  intro l₁
  induction l₁ with
  | nil => intro l₂ _; rfl
  | cons a t ih =>
    intro l₂ hfg
    cases l₂ with
    | nil => rfl
    | cons b t₂ =>
      simp only [List.zipWith_cons_cons, List.cons.injEq]
      refine ⟨hfg a (List.mem_cons_self a t) b (List.mem_cons_self b t₂), ?_⟩
      exact ih t₂ (fun x hx y hy =>
        hfg x (List.mem_cons_of_mem a hx) y (List.mem_cons_of_mem b hy))

theorem editedForDiff_WF {rz : ResizeOracle} (hrz : ResizeOracle.OK rz)
    {orig edited : Raster} (he : edited.WF) : (editedForDiff rz orig edited).WF := by
  unfold editedForDiff
  by_cases hc : orig.w = edited.w ∧ orig.h = edited.h
  · rw [if_pos hc]; exact he
  · rw [if_neg hc]; exact (hrz edited orig.w orig.h).2.2

theorem compute_diff_eq_raw {rz : ResizeOracle}
    {orig edited : Raster} (ho : orig.WF) (hef : (editedForDiff rz orig edited).WF) :
    List.zipWith (fun e o => wrap16 (e - o)) (editedForDiff rz orig edited).data orig.data
      = rawPixelDiff rz orig edited := by
  unfold rawPixelDiff
  apply zipWith_congr_mem
  intro a ha b hb
  have ha2 := hef.2 a ha
  have hb2 := ho.2 b hb
  exact wrap16_eq_of_range (by omega) (by omega)

theorem rawPixelDiff_bounds {rz : ResizeOracle}
    {orig edited : Raster} (ho : orig.WF) (hef : (editedForDiff rz orig edited).WF) :
    ∀ x ∈ rawPixelDiff rz orig edited, -255 ≤ x ∧ x ≤ 255 := by
  rw [← compute_diff_eq_raw ho hef]
  exact zipWith_diff_bounds _ _ hef.2 ho.2

theorem minmax_guard (v : Int) (rest : List Int) :
    (-128 ≤ listMin v rest ∧ listMax v rest ≤ 127) ↔
      ∀ x ∈ v :: rest, -128 ≤ x ∧ x ≤ 127 := by
  rw [le_listMin_iff, listMax_le_iff]
  constructor
  · rintro ⟨⟨h1, h2⟩, h3, h4⟩ x hx
    rcases List.mem_cons.mp hx with hx | hx
    · exact ⟨hx ▸ h1, hx ▸ h3⟩
    · exact ⟨h2 x hx, h4 x hx⟩
  · intro hall
    refine ⟨⟨(hall v (List.mem_cons_self v rest)).1, fun x hx =>
      (hall x (List.mem_cons_of_mem v hx)).1⟩,
      (hall v (List.mem_cons_self v rest)).2, fun x hx =>
      (hall x (List.mem_cons_of_mem v hx)).2⟩

theorem compute_char {rz : ResizeOracle}
    {orig edited : Raster} (ho : orig.WF) (hef : (editedForDiff rz orig edited).WF)
    (hne : rawPixelDiff rz orig edited ≠ []) :
    compute_pixel_difference_matrix rz orig edited =
      .ok ⟨if ∀ x ∈ rawPixelDiff rz orig edited, -128 ≤ x ∧ x ≤ 127 then .int8 else .int16,
           [orig.h, orig.w, 3], rawPixelDiff rz orig edited⟩ := by
  unfold compute_pixel_difference_matrix
  rw [compute_diff_eq_raw ho hef]
  rcases hd : rawPixelDiff rz orig edited with _ | ⟨v, rest⟩
  · exact absurd hd hne
  · have hbounds : ∀ x ∈ v :: rest, -255 ≤ x ∧ x ≤ 255 := by
      rw [← hd]; exact rawPixelDiff_bounds ho hef
    dsimp only
    by_cases hg : -128 ≤ listMin v rest ∧ listMax v rest ≤ 127
    · rw [if_pos hg, if_pos ((minmax_guard v rest).mp hg)]
      have : (v :: rest).map wrap8 = v :: rest :=
        map_wrap8_eq ((minmax_guard v rest).mp hg)
      rw [this]
    · rw [if_neg hg, if_neg (fun hall => hg ((minmax_guard v rest).mpr hall))]
      have : (v :: rest).map wrap16 = v :: rest :=
        map_wrap16_eq (fun x hx => by have := hbounds x hx; omega)
      rw [this]

theorem compute_empty {rz : ResizeOracle}
    {orig edited : Raster} (ho : orig.WF) (hef : (editedForDiff rz orig edited).WF)
    (hd : rawPixelDiff rz orig edited = []) :
    compute_pixel_difference_matrix rz orig edited =
      .error "zero-size array to reduction operation minimum which has no identity" := by
  unfold compute_pixel_difference_matrix
  rw [compute_diff_eq_raw ho hef, hd]

theorem editedForDiff_same {rz : ResizeOracle} {orig edited : Raster}
    (hw : orig.w = edited.w) (hh : orig.h = edited.h) :
    editedForDiff rz orig edited = edited := by
  unfold editedForDiff
  rw [if_pos ⟨hw, hh⟩]

/-! ## Claim theorems -/

/-- C1, counterexample to the claim as stated: for the (legal PIL) pair of
same-sized 0times0 RGB rasters, `compute_pixel_difference_matrix` raises
`ValueError` at `np.min` of the empty difference, so no matrix is produced
and the reconstruction equation cannot hold.  The oracles are instantiated
concretely; they are never consulted on this input. -/
theorem c1_counterexample_empty_raster :
    ¬ ∃ M, compute_pixel_difference_matrix blackResize ⟨0, 0, []⟩ ⟨0, 0, []⟩ =
        Except.ok M ∧
      apply_pixel_difference_matrix idWarp idNearest ⟨0, 0, []⟩ M = ⟨0, 0, []⟩ := by
  rintro ⟨M, hM, _⟩
  have hc : compute_pixel_difference_matrix blackResize ⟨0, 0, []⟩ ⟨0, 0, []⟩ =
      Except.error "zero-size array to reduction operation minimum which has no identity" := rfl
  rw [hc] at hM
  exact Except.noConfusion hM

/-- C1 (amended): for every pair of same-sized well-formed RGB rasters with
at least one pixel, applying the computed pixel-difference matrix to the
original reproduces the edited raster exactly: the int16 arithmetic is
exact, the clip to `[0, 255]` never changes a value, and this holds for
every resampling, warping and nearest-neighbour collaborator since none of
them is consulted on this path. -/
theorem c1_diff_roundtrip_exact (rz : ResizeOracle) (warp : WarpOracle) (nn : NearestOracle)
    (orig edited : Raster) (ho : orig.WF) (he : edited.WF)
    (hh : orig.h = edited.h) (hw : orig.w = edited.w) (hnz : 0 < orig.h * orig.w) :
    ∃ M, compute_pixel_difference_matrix rz orig edited = Except.ok M ∧
      apply_pixel_difference_matrix warp nn orig M = edited := by
  have hsame : editedForDiff rz orig edited = edited := editedForDiff_same hw hh
  have hef : (editedForDiff rz orig edited).WF := by rw [hsame]; exact he
  have hlen : edited.data.length = orig.data.length := by
    rw [he.1, ho.1, hh, hw]
  have hraw : rawPixelDiff rz orig edited =
      List.zipWith (fun e o => e - o) edited.data orig.data := by
    unfold rawPixelDiff
    rw [hsame]
  have hrawlen : (rawPixelDiff rz orig edited).length = orig.h * orig.w * 3 := by
    rw [hraw, List.length_zipWith, hlen, Nat.min_self, ho.1]
  have hne : rawPixelDiff rz orig edited ≠ [] := by
    intro hcon
    rw [hcon] at hrawlen
    simp only [List.length_nil] at hrawlen
    omega
  refine ⟨_, compute_char ho hef hne, ?_⟩
  unfold apply_pixel_difference_matrix
  rw [if_neg (by simp)]
  have hd16 :
      (if (DiffMatrix.mk
            (if ∀ x ∈ rawPixelDiff rz orig edited, -128 ≤ x ∧ x ≤ 127 then .int8 else .int16)
            [orig.h, orig.w, 3] (rawPixelDiff rz orig edited)).dtype = .int8 then
        (rawPixelDiff rz orig edited).map wrap16
      else rawPixelDiff rz orig edited) = rawPixelDiff rz orig edited := by
    dsimp only
    by_cases hfit : ∀ x ∈ rawPixelDiff rz orig edited, -128 ≤ x ∧ x ≤ 127
    · rw [if_pos hfit, if_pos rfl]
      exact map_wrap16_eq (fun x hx => by have := hfit x hx; omega)
    · rw [if_neg hfit, if_neg (by decide : ¬ (DType.int16 = DType.int8))]
  simp only [hd16]
  simp only [if_true]
  rw [← compute_diff_eq_raw ho hef, hsame,
    zipWith_reconstruct edited.data orig.data hlen he.2 ho.2]
  obtain ⟨eh, ew, ed⟩ := edited
  simp only [Raster.mk.injEq] at hh hw ⊢
  exact ⟨hh, hw, trivial⟩

/-- C1 witness: the amended round trip evaluated at the concrete
one-pixel black raster pair. -/
theorem c1_diff_roundtrip_exact_witness :
    ∃ M, compute_pixel_difference_matrix blackResize ⟨1, 1, [0, 0, 0]⟩ ⟨1, 1, [0, 0, 0]⟩ =
        Except.ok M ∧
      apply_pixel_difference_matrix idWarp idNearest ⟨1, 1, [0, 0, 0]⟩ M =
        ⟨1, 1, [0, 0, 0]⟩ :=
  c1_diff_roundtrip_exact blackResize idWarp idNearest ⟨1, 1, [0, 0, 0]⟩ ⟨1, 1, [0, 0, 0]⟩
    (by constructor <;> decide) (by constructor <;> decide) rfl rfl (by decide)

/-- Admissibility of the concrete black-output resampler. -/
theorem blackResize_OK : ResizeOracle.OK blackResize := by
  intro r tw th
  refine ⟨rfl, rfl, ?_, ?_⟩
  · simp [blackResize]
  · intro v hv
    rw [List.eq_of_mem_replicate hv]
    omega

/-- C3: for every pair of well-formed input rasters and every admissible
resampler, whenever `compute_pixel_difference_matrix` returns a matrix, its
dtype is int8 exactly when every element of the int16 difference
`edited - original` lies in `[-128, 127]` (so extremes of exactly -128/127
stay int8, while one element at -129 or 128 forces int16), the matrix is an
int8-or-int16 array, and the narrowing never changes any element: the data
is the raw difference itself. -/
theorem c3_dtype_narrowest (rz : ResizeOracle) (orig edited : Raster) (M : DiffMatrix)
    (hrz : ResizeOracle.OK rz) (ho : orig.WF) (he : edited.WF)
    (hok : compute_pixel_difference_matrix rz orig edited = Except.ok M) :
    (M.dtype = .int8 ↔ ∀ x ∈ rawPixelDiff rz orig edited, -128 ≤ x ∧ x ≤ 127) ∧
    M.data = rawPixelDiff rz orig edited ∧
    (M.dtype = .int8 ∨ M.dtype = .int16) := by
  have hef : (editedForDiff rz orig edited).WF := editedForDiff_WF hrz he
  by_cases hd : rawPixelDiff rz orig edited = []
  · rw [compute_empty ho hef hd] at hok
    exact Except.noConfusion hok
  · rw [compute_char ho hef hd] at hok
    have hM := Except.ok.inj hok
    subst hM
    by_cases hfit : ∀ x ∈ rawPixelDiff rz orig edited, -128 ≤ x ∧ x ≤ 127
    · rw [if_pos hfit]
      exact ⟨⟨fun _ => hfit, fun _ => rfl⟩, rfl, Or.inl rfl⟩
    · rw [if_neg hfit]
      exact ⟨⟨fun hcon => DType.noConfusion hcon, fun hcon => absurd hcon hfit⟩,
        rfl, Or.inr rfl⟩

/-- C3 witness: the characterization evaluated at a concrete one-pixel pair
whose difference `[10, 20, 30]` fits in int8. -/
theorem c3_dtype_narrowest_witness :
    ((DiffMatrix.mk .int8 [1, 1, 3] [10, 20, 30]).dtype = .int8 ↔
      ∀ x ∈ rawPixelDiff blackResize ⟨1, 1, [0, 0, 0]⟩ ⟨1, 1, [10, 20, 30]⟩,
        -128 ≤ x ∧ x ≤ 127) ∧
    (DiffMatrix.mk .int8 [1, 1, 3] [10, 20, 30]).data =
      rawPixelDiff blackResize ⟨1, 1, [0, 0, 0]⟩ ⟨1, 1, [10, 20, 30]⟩ ∧
    ((DiffMatrix.mk .int8 [1, 1, 3] [10, 20, 30]).dtype = .int8 ∨
      (DiffMatrix.mk .int8 [1, 1, 3] [10, 20, 30]).dtype = .int16) :=
  c3_dtype_narrowest blackResize ⟨1, 1, [0, 0, 0]⟩ ⟨1, 1, [10, 20, 30]⟩
    ⟨.int8, [1, 1, 3], [10, 20, 30]⟩ blackResize_OK
    (by constructor <;> decide) (by constructor <;> decide) rfl

/-- C9: a difference artifact that is a two-dimensional `(3, 3)` array is
not applied as a pixel difference: `apply_pixel_difference_matrix` routes
it to the transform engine and returns `apply_transformation_matrix` of the
original raster under the float32 reinterpretation of the array. -/
theorem c9_legacy_shape_sniff (warp : WarpOracle) (nn : NearestOracle) (orig : Raster)
    (diff : DiffMatrix) (hshape : diff.shape = [3, 3]) :
    apply_pixel_difference_matrix warp nn orig diff =
      apply_transformation_matrix warp orig (m3OfDiff diff) := by
  unfold apply_pixel_difference_matrix
  rw [if_pos ⟨by rw [hshape]; rfl, hshape⟩]

/-- C9 witness: the routing evaluated at a concrete `(3, 3)` identity-like
artifact and a one-pixel raster. -/
theorem c9_legacy_shape_sniff_witness :
    apply_pixel_difference_matrix idWarp idNearest ⟨1, 1, [0, 0, 0]⟩
        ⟨.int16, [3, 3], [1, 0, 0, 0, 1, 0, 0, 0, 1]⟩ =
      apply_transformation_matrix idWarp ⟨1, 1, [0, 0, 0]⟩
        (m3OfDiff ⟨.int16, [3, 3], [1, 0, 0, 0, 1, 0, 0, 0, 1]⟩) :=
  c9_legacy_shape_sniff idWarp idNearest ⟨1, 1, [0, 0, 0]⟩
    ⟨.int16, [3, 3], [1, 0, 0, 0, 1, 0, 0, 0, 1]⟩ rfl

theorem chunks_length (sz : Nat) : ∀ (cnt : Nat) (d : List α), (chunks cnt sz d).length = cnt := by
  intro cnt
  induction cnt with
  | zero => intro d; rfl
  | succ n ih => intro d; simp [chunks, ih]

theorem WF_fits16 {m : DiffMatrix} (h : m.WF) : ∀ x ∈ m.data, -32768 ≤ x ∧ x ≤ 32767 := by
  intro x hx
  have hb := h.2.2 x hx
  rcases h.1 with hd | hd <;> rw [hd] at hb <;>
    simp only [DType.minVal, DType.maxVal] at hb <;> omega

theorem WF_int8_fits {m : DiffMatrix} (h : m.WF) (hd : m.dtype = .int8) :
    ∀ x ∈ m.data, -128 ≤ x ∧ x ≤ 127 := by
  intro x hx
  have hb := h.2.2 x hx
  rw [hd] at hb
  simpa [DType.minVal, DType.maxVal] using hb

theorem renarrow_int16 (sh : List Nat) (d : List Int) :
    renarrow ⟨.int16, sh, d⟩ =
      if ∀ x ∈ d, -128 ≤ x ∧ x ≤ 127 then ⟨.int8, sh, d⟩ else ⟨.int16, sh, d⟩ := by
  unfold renarrow
  by_cases hfit : ∀ x ∈ d, -128 ≤ x ∧ x ≤ 127
  · rw [if_pos ⟨rfl, hfit⟩, if_pos hfit]
    simp only [DiffMatrix.mk.injEq, true_and]
    exact map_wrap8_eq hfit
  · rw [if_neg (fun hcon => hfit hcon.2), if_neg hfit]

theorem diff_roundtrip_npz (m : DiffMatrix) (p : FPath) (hwf : m.WF)
    (hp : p.ext = ".npz") :
    load_pixel_difference_matrix (save_pixel_difference_matrix m p []) p =
      Except.ok ⟨if ∀ x ∈ m.data, -128 ≤ x ∧ x ≤ 127 then .int8 else m.dtype,
        m.shape, m.data⟩ := by
  have hsave : save_pixel_difference_matrix m p [] =
      [(p, .npz "diff_matrix"
        (if m.dtype = .int8 then ⟨.int16, m.shape, m.data.map wrap16⟩ else m))] := by
    unfold save_pixel_difference_matrix savezTarget
    rw [if_neg (by rw [hp]; decide), if_pos hp]
    rfl
  unfold load_pixel_difference_matrix
  rw [hsave, if_pos hp]
  have hl : alookup [(p, DFile.npz "diff_matrix"
      (if m.dtype = .int8 then ⟨.int16, m.shape, m.data.map wrap16⟩ else m))] p =
      some (.npz "diff_matrix"
      (if m.dtype = .int8 then ⟨.int16, m.shape, m.data.map wrap16⟩ else m)) := by
    simp [alookup]
  dsimp only
  rw [hl]
  dsimp only
  by_cases h8 : m.dtype = .int8
  · have hfit : ∀ x ∈ m.data, -128 ≤ x ∧ x ≤ 127 := WF_int8_fits hwf h8
    have hmap : m.data.map wrap16 = m.data :=
      map_wrap16_eq (fun x hx => by have := hfit x hx; omega)
    rw [if_pos h8, hmap, renarrow_int16, if_pos hfit, if_pos hfit]
  · have h16 : m.dtype = .int16 := hwf.1.resolve_left h8
    rw [if_neg h8]
    rcases m with ⟨dt, sh, d⟩
    simp only at h16
    subst h16
    rw [renarrow_int16]
    by_cases hfit : ∀ x ∈ d, -128 ≤ x ∧ x ≤ 127
    · rw [if_pos hfit, if_pos hfit]
    · rw [if_neg hfit, if_neg hfit]

theorem diff_roundtrip_json (m : DiffMatrix) (h w : Nat) (p : FPath)
    (hsh : m.shape = [h, w, 3]) (hwf : m.WF) (hp : p.ext = ".json") :
    ∃ sh2, load_pixel_difference_matrix (save_pixel_difference_matrix m p []) p =
      Except.ok ⟨if ∀ x ∈ m.data, -128 ≤ x ∧ x ≤ 127 then .int8 else m.dtype,
        sh2, m.data⟩ := by
  have hsave : save_pixel_difference_matrix m p [] = [(p, .txt (tolist3 m))] := by
    unfold save_pixel_difference_matrix
    rw [if_pos hp]
    rfl
  have hflat : flat3 (tolist3 m) = m.data := by
    unfold tolist3
    rw [hsh]
    refine flat3_tolist3 ?_
    rw [hwf.2.1, hsh]
    simp [Nat.mul_assoc]
  unfold load_pixel_difference_matrix
  rw [hsave, if_neg (by rw [hp]; decide)]
  have hnpz : alookup [(p, DFile.txt (tolist3 m))] (withExt p ".npz") = none := by
    have hne : withExt p ".npz" ≠ p := by
      intro hcon
      have := congrArg FPath.ext hcon
      simp only [withExt] at this
      rw [hp] at this
      exact absurd this (by decide)
    simp only [alookup]
    rw [if_neg (fun hcon => hne hcon.symm)]
  dsimp only
  rw [hnpz]
  dsimp only
  rw [if_pos hp]
  have hl : alookup [(p, DFile.txt (tolist3 m))] p = some (.txt (tolist3 m)) := by
    simp [alookup]
  rw [hl]
  dsimp only
  have hmap : (flat3 (tolist3 m)).map wrap16 = m.data := by
    rw [hflat]
    exact map_wrap16_eq (WF_fits16 hwf)
  rw [hmap, renarrow_int16]
  refine ⟨inferShape3 (tolist3 m), ?_⟩
  by_cases hfit : ∀ x ∈ m.data, -128 ≤ x ∧ x ≤ 127
  · rw [if_pos hfit, if_pos hfit]
  · have h16 : m.dtype = .int16 := by
      rcases hwf.1 with h8 | h16
      · exact absurd (WF_int8_fits hwf h8) hfit
      · exact h16
    rw [if_neg hfit, if_neg hfit, h16]

theorem trans_roundtrip_npz {α : Type} (t : TMat α) (p : FPath) (hp : p.ext = ".npz") :
    load_transformation_matrix (save_transformation_matrix t p []) p = Except.ok t := by
  have hsave : save_transformation_matrix t p [] = [(p, .npz "matrix" t)] := by
    unfold save_transformation_matrix savezTarget
    rw [if_neg (by rw [hp]; decide), if_pos hp]
    rfl
  unfold load_transformation_matrix
  rw [hsave, if_pos hp]
  dsimp only
  have hl : alookup [(p, TFile.npz "matrix" t)] p = some (.npz "matrix" t) := by
    simp [alookup]
  rw [hl]

theorem trans_roundtrip_json {α : Type} (t : TMat α) (p : FPath)
    (hsh : t.shape = [3, 3]) (hlen : t.data.length = 9) (hdt : t.dtype = .float32)
    (hp : p.ext = ".json") :
    load_transformation_matrix (save_transformation_matrix t p []) p = Except.ok t := by
  have hsave : save_transformation_matrix t p [] = [(p, .txt (tolist2 t))] := by
    unfold save_transformation_matrix
    rw [if_pos hp]
    rfl
  have hrows : tolist2 t = chunks 3 3 t.data := by
    unfold tolist2
    rw [hsh]
  unfold load_transformation_matrix
  rw [hsave, if_neg (by rw [hp]; decide)]
  have hnpz : alookup [(p, TFile.txt (tolist2 t))] (withExt p ".npz") = none := by
    have hne : withExt p ".npz" ≠ p := by
      intro hcon
      have := congrArg FPath.ext hcon
      simp only [withExt] at this
      rw [hp] at this
      exact absurd this (by decide)
    simp only [alookup]
    rw [if_neg (fun hcon => hne hcon.symm)]
  dsimp only
  rw [hnpz]
  dsimp only
  rw [if_pos hp]
  have hl : alookup [(p, TFile.txt (tolist2 t))] p = some (.txt (tolist2 t)) := by
    simp [alookup]
  rw [hl]
  dsimp only
  have hflat : (tolist2 t).flatten = t.data := by
    rw [hrows]
    exact chunks_flatten (by rw [hlen])
  have hshape2 : inferShape2 (tolist2 t) = [3, 3] := by
    rw [hrows]
    show inferShape2 (t.data.take 3 :: chunks 2 3 (t.data.drop 3)) = [3, 3]
    simp only [inferShape2, List.length_cons, chunks_length, List.length_take, hlen]
    decide
  rw [hflat, hshape2]
  rcases t with ⟨dt, sh, d⟩
  simp only at hdt hsh
  subst hdt
  subst hsh
  rfl

/-- C2: for every well-formed diff matrix and both serialization formats
(binary `.npz` and legacy text `.json`), loading right after saving returns
an array equal element-for-element, whose dtype is the original one except
that an int16 payload whose elements all fit in `[-128, 127]` is narrowed
to int8 (the defined, lossless narrowing); and the analogous round trip on
3x3 float32 transform matrices is exact for both formats. -/
theorem c2_codec_roundtrip :
    (∀ (m : DiffMatrix) (h w : Nat) (p : FPath),
      m.shape = [h, w, 3] → m.WF → (p.ext = ".npz" ∨ p.ext = ".json") →
      ∃ m2, load_pixel_difference_matrix (save_pixel_difference_matrix m p []) p =
          Except.ok m2 ∧
        m2.data = m.data ∧
        (m2.dtype = if ∀ x ∈ m.data, -128 ≤ x ∧ x ≤ 127 then .int8 else m.dtype)) ∧
    (∀ (α : Type) (t : TMat α) (p : FPath),
      t.shape = [3, 3] → t.data.length = 9 → t.dtype = .float32 →
      (p.ext = ".npz" ∨ p.ext = ".json") →
      load_transformation_matrix (save_transformation_matrix t p []) p = Except.ok t) := by
  constructor
  · intro m h w p hsh hwf hp
    rcases hp with hp | hp
    · exact ⟨_, diff_roundtrip_npz m p hwf hp, rfl, rfl⟩
    · obtain ⟨sh2, hload⟩ := diff_roundtrip_json m h w p hsh hwf hp
      exact ⟨_, hload, rfl, rfl⟩
  · intro α t p hsh hlen hdt hp
    rcases hp with hp | hp
    · exact trans_roundtrip_npz t p hp
    · exact trans_roundtrip_json t p hsh hlen hdt hp

/-- C2 witness: the round trip evaluated at a concrete int16 diff matrix
saved through the text format and at a concrete 3x3 float32 transform
saved through the binary format. -/
theorem c2_codec_roundtrip_witness :
    (∃ m2, load_pixel_difference_matrix
        (save_pixel_difference_matrix ⟨.int16, [1, 1, 3], [200, -3, 0]⟩
          ⟨"art", ".json"⟩ []) ⟨"art", ".json"⟩ = Except.ok m2 ∧
      m2.data = (DiffMatrix.mk .int16 [1, 1, 3] [200, -3, 0]).data ∧
      (m2.dtype = if ∀ x ∈ (DiffMatrix.mk .int16 [1, 1, 3] [200, -3, 0]).data,
          -128 ≤ x ∧ x ≤ 127 then .int8
        else (DiffMatrix.mk .int16 [1, 1, 3] [200, -3, 0]).dtype)) ∧
    load_transformation_matrix
      (save_transformation_matrix
        (⟨.float32, [3, 3], [1, 0, 0, 0, 1, 0, 0, 0, 1]⟩ : TMat Int)
        ⟨"mat", ".npz"⟩ []) ⟨"mat", ".npz"⟩ =
      Except.ok ⟨.float32, [3, 3], [1, 0, 0, 0, 1, 0, 0, 0, 1]⟩ :=
  ⟨c2_codec_roundtrip.1 ⟨.int16, [1, 1, 3], [200, -3, 0]⟩ 1 1 ⟨"art", ".json"⟩ rfl
      ⟨Or.inr rfl, by decide, by decide⟩ (Or.inr rfl),
    c2_codec_roundtrip.2 Int ⟨.float32, [3, 3], [1, 0, 0, 0, 1, 0, 0, 0, 1]⟩
      ⟨"mat", ".npz"⟩ rfl rfl rfl (Or.inl rfl)⟩

/-- C4, counterexample to the claim as stated: saving the int8 diff matrix
`[5, -5, 0]` through the binary format stores a container whose array has
dtype int16, not int8 — `save_pixel_difference_matrix` widens int8 data
with `astype(np.int16)` before `np.savez_compressed`. -/
theorem c4_counterexample_int8_widened :
    alookup (save_pixel_difference_matrix ⟨.int8, [1, 1, 3], [5, -5, 0]⟩
        ⟨"m", ".npz"⟩ []) ⟨"m", ".npz"⟩ =
      some (.npz "diff_matrix" ⟨.int16, [1, 1, 3], [5, -5, 0]⟩) ∧
    (DiffMatrix.mk .int16 [1, 1, 3] [5, -5, 0]).dtype ≠ .int8 := by
  constructor
  · rfl
  · decide

/-- C4 (amended): saving a well-formed diff matrix through the binary
format writes one NPZ container at the savez target path that preserves the
shape and every element value exactly, and preserves the dtype of an int16
matrix; an int8 matrix is stored widened to dtype int16 (the load-time
re-narrowing recovers int8). -/
theorem c4_binary_container_contents (m : DiffMatrix) (p : FPath)
    (hwf : m.WF) (hp : p.ext ≠ ".json") :
    alookup (save_pixel_difference_matrix m p []) (savezTarget p) =
      some (.npz "diff_matrix"
        ⟨if m.dtype = .int8 then .int16 else m.dtype, m.shape, m.data⟩) := by
  unfold save_pixel_difference_matrix
  rw [if_neg hp]
  dsimp only
  rw [alookup_aset_self]
  by_cases h8 : m.dtype = .int8
  · rw [if_pos h8, if_pos h8,
      map_wrap16_eq (fun x hx => by have := WF_int8_fits hwf h8 x hx; omega)]
  · rw [if_neg h8, if_neg h8]

/-- C4 witness: the amended container description evaluated at a concrete
int16 matrix saved under a `.bin` path (exercising the `.npz` suffix
appending). -/
theorem c4_binary_container_contents_witness :
    alookup (save_pixel_difference_matrix ⟨.int16, [1, 1, 3], [300, -300, 0]⟩
        ⟨"k", ".bin"⟩ []) (savezTarget ⟨"k", ".bin"⟩) =
      some (.npz "diff_matrix"
        ⟨if (DiffMatrix.mk .int16 [1, 1, 3] [300, -300, 0]).dtype = .int8 then .int16
          else (DiffMatrix.mk .int16 [1, 1, 3] [300, -300, 0]).dtype,
        [1, 1, 3], [300, -300, 0]⟩) :=
  c4_binary_container_contents ⟨.int16, [1, 1, 3], [300, -300, 0]⟩ ⟨"k", ".bin"⟩
    ⟨Or.inr rfl, by decide, by decide⟩ (by decide)

theorem sortMatches_length (ms : List MatchRec) : (sortMatches ms).length = ms.length :=
  (List.perm_insertionSort _ ms).length_eq

/-- C5: whenever feature detection yields no usable descriptors on either
side, or the matcher reports fewer than 4 correspondences, or the affine
estimator returns no matrix, `compute_transformation_matrix` returns the
3x3 identity matrix — a total fallback, not an error. -/
theorem c5_identity_fallback (o : VisionOracle)
    (h : o.des1 = none ∨ o.des2 = none ∨
      (∀ d1 d2, o.des1 = some d1 → o.des2 = some d2 →
        (o.matchFn d1 d2).length < 4 ∨
        o.estimateFn (srcPoints o d1 d2) (dstPoints o d1 d2) = none)) :
    compute_transformation_matrix o = eye3 := by
  unfold compute_transformation_matrix
  rcases hd1 : o.des1 with _ | d1
  · rfl
  · rcases hd2 : o.des2 with _ | d2
    · rfl
    · rcases h with h | h | h
      · rw [hd1] at h
        exact Option.noConfusion h
      · rw [hd2] at h
        exact Option.noConfusion h
      · dsimp only
        rcases h d1 d2 hd1 hd2 with hlt | hest
        · rw [if_pos (by rw [sortMatches_length]; exact hlt)]
        · by_cases hlen : (sortMatches (o.matchFn d1 d2)).length < 4
          · rw [if_pos hlen]
          · rw [if_neg hlen, hest]

/-- C5 witness: the identity fallback evaluated at a concrete oracle whose
first descriptor set is missing. -/
theorem c5_identity_fallback_witness :
    compute_transformation_matrix
      ⟨none, none, [], [], fun _ _ => [], fun _ _ => none⟩ = eye3 :=
  c5_identity_fallback ⟨none, none, [], [], fun _ _ => [], fun _ _ => none⟩
    (Or.inl rfl)

/-- C6: an empty matrix chain returns the original raster unchanged (for
every warping collaborator, hence without performing any warp); a non-empty
chain folds the matrices into one accumulator with each subsequent matrix
left-multiplied, applies the result exactly once through the transform
engine, and the accumulated matrix equals the matrix product of the chain
in reverse order. -/
theorem c6_chain_composition (warp : WarpOracle) (orig : Raster) :
    reconstruct_from_chain warp orig [] = orig ∧
    ∀ (m : M3) (ms : List M3),
      reconstruct_from_chain warp orig (m :: ms) =
        apply_transformation_matrix warp orig
          (ms.foldl (fun acc mi => matMul mi acc) m) ∧
      ms.foldl (fun acc mi => matMul mi acc) m = matListProd ((m :: ms).reverse) := by
  refine ⟨rfl, fun m ms => ⟨rfl, ?_⟩⟩
  rw [foldl_chain_eq_prod_reverse, List.reverse_cons, matListProd_append_single]

theorem mem_sortVersions (x : Int) (l : List Int) : x ∈ sortVersions l ↔ x ∈ l :=
  (sortVersions_perm l).mem_iff

theorem add_lookup_self (idx : IndexDoc) (stem : String) (version : Int)
    (mk mp : Option String) :
    alookup (add_image_version idx stem version mk mp).images stem =
      some ⟨if version ∈ (entryOf idx stem).versions then (entryOf idx stem).versions
          else sortVersions ((entryOf idx stem).versions ++ [version]),
        match mk, mp with
        | some k, some pa =>
          if k ≠ "" ∧ pa ≠ "" then aset (entryOf idx stem).matrices k pa
          else (entryOf idx stem).matrices
        | _, _ => (entryOf idx stem).matrices⟩ := by
  unfold add_image_version
  exact alookup_aset_self idx.images stem _

theorem add_lookup_ne (idx : IndexDoc) (stem : String) (version : Int)
    (mk mp : Option String) (s : String) (hs : s ≠ stem) :
    alookup (add_image_version idx stem version mk mp).images s =
      alookup idx.images s := by
  unfold add_image_version
  exact alookup_aset_ne idx.images stem s _ hs

theorem mem_add_versions_old (E : ImageEntry) (version x : Int)
    (hx : x ∈ E.versions) :
    x ∈ (if version ∈ E.versions then E.versions
      else sortVersions (E.versions ++ [version])) := by
  by_cases hv : version ∈ E.versions
  · rw [if_pos hv]; exact hx
  · rw [if_neg hv, mem_sortVersions]
    exact List.mem_append_left _ hx

theorem mem_add_versions_new (E : ImageEntry) (version : Int) :
    version ∈ (if version ∈ E.versions then E.versions
      else sortVersions (E.versions ++ [version])) := by
  by_cases hv : version ∈ E.versions
  · rw [if_pos hv]; exact hv
  · rw [if_neg hv, mem_sortVersions]
    exact List.mem_append_right _ (List.mem_singleton.mpr rfl)

theorem entryEdgeInv_entryOf (idx : IndexDoc) (stem : String)
    (hinv : indexEdgeInv idx) : entryEdgeInv (entryOf idx stem) := by
  unfold entryOf
  rcases he : alookup idx.images stem with _ | e0
  · intro k pa hm
    simp only [Option.getD_none, emptyEntry] at hm
    exact absurd hm (List.not_mem_nil _)
  · simpa using hinv stem e0 he

/-- C7, counterexample to the claim as stated: the empty index satisfies
the edge-key invariant, yet one `add_image_version` call with version `5`
and matrix key `"1->99"` — a combination of arguments the function accepts —
produces an entry whose key maps to the `to` version `99`, absent from the
versions list `[5]`.  The invariant is therefore not preserved for every
combination of arguments. -/
theorem c7_counterexample_unchecked_key :
    indexEdgeInv ⟨[]⟩ ∧
    ¬ indexEdgeInv (add_image_version ⟨[]⟩ "img" 5 (some "1->99") (some "p")) := by
  constructor
  · intro s e hse
    exact Option.noConfusion hse
  · intro hinv
    have hidx : alookup (add_image_version ⟨[]⟩ "img" 5 (some "1->99") (some "p")).images
        "img" = some ⟨[5], [("1->99", "p")]⟩ := by
      rw [add_lookup_self]
      rfl
    have hentry := hinv "img" ⟨[5], [("1->99", "p")]⟩ hidx "1->99" "p"
      (List.mem_singleton.mpr rfl)
    obtain ⟨f, t, hparse, hmem⟩ := hentry
    have hp99 : parseEdgeKey "1->99" = some (1, 99) := by decide
    rw [hp99] at hparse
    have ht : t = 99 := (Prod.mk.injEq _ _ _ _ ▸ Option.some.inj hparse.symm).2
    rw [ht] at hmem
    exact absurd hmem (by decide)

/-- C7 (amended): the edge-key invariant — every key in a `matrices`
mapping is an edge key whose `to` version is in `versions` — is preserved
by `add_image_version` whenever the effectively written key (if any) is an
edge key whose `to` part equals the `version` argument or is already among
the stem's versions; every caller in the repository passes
`version = to_version` and key `"{from}->{to}"`, satisfying this. -/
theorem c7_edge_invariant_preserved (idx : IndexDoc) (stem : String) (version : Int)
    (mk mp : Option String) (hinv : indexEdgeInv idx)
    (hk : ∀ k, effKey mk mp = some k →
      ∃ f t, parseEdgeKey k = some (f, t) ∧
        (t = version ∨ t ∈ (entryOf idx stem).versions)) :
    indexEdgeInv (add_image_version idx stem version mk mp) := by
  intro s e hse
  by_cases hs : s = stem
  · subst hs
    rw [add_lookup_self] at hse
    obtain rfl := Option.some.inj hse
    intro k pa hm
    simp only at hm ⊢
    have hold : ∀ k₁ pa₁, (k₁, pa₁) ∈ (entryOf idx s).matrices →
        ∃ f t, parseEdgeKey k₁ = some (f, t) ∧
          t ∈ (if version ∈ (entryOf idx s).versions then (entryOf idx s).versions
            else sortVersions ((entryOf idx s).versions ++ [version])) := by
      intro k₁ pa₁ hm₁
      obtain ⟨f, t, hp, ht⟩ := entryEdgeInv_entryOf idx s hinv k₁ pa₁ hm₁
      exact ⟨f, t, hp, mem_add_versions_old _ _ _ ht⟩
    rcases mk with _ | k0
    · exact hold k pa hm
    · rcases mp with _ | p0
      · exact hold k pa hm
      · dsimp only at hm
        by_cases hef : k0 ≠ "" ∧ p0 ≠ ""
        · rw [if_pos hef] at hm
          rcases mem_aset _ _ _ _ _ hm with ⟨hk1, _⟩ | hm₁
          · subst hk1
            obtain ⟨f, t, hp, ht⟩ := hk k (by simp [effKey, hef])
            refine ⟨f, t, hp, ?_⟩
            rcases ht with ht | ht
            · rw [ht]
              exact mem_add_versions_new _ _
            · exact mem_add_versions_old _ _ _ ht
          · exact hold k pa hm₁
        · rw [if_neg hef] at hm
          exact hold k pa hm
  · rw [add_lookup_ne idx stem version mk mp s hs] at hse
    exact hinv s e hse

/-- C7 witness: the amended preservation applied to the empty index with a
well-formed recording call (`version 7`, key `"1->7"`). -/
theorem c7_edge_invariant_preserved_witness :
    indexEdgeInv (add_image_version ⟨[]⟩ "img" 7 (some "1->7") (some "p")) :=
  c7_edge_invariant_preserved ⟨[]⟩ "img" 7 (some "1->7") (some "p")
    (fun _ _ hse => Option.noConfusion hse)
    (fun k hk => by
      have : k = "1->7" := by
        simp only [effKey] at hk
        rw [if_pos (by decide)] at hk
        exact (Option.some.inj hk).symm
      subst this
      exact ⟨1, 7, by decide, Or.inl rfl⟩)

theorem versOK_add (l : List Int) (version : Int) (hv : versOK l) :
    versOK (if version ∈ l then l else sortVersions (l ++ [version])) := by
  by_cases hmem : version ∈ l
  · rw [if_pos hmem]; exact hv
  · rw [if_neg hmem]
    refine ⟨sortVersions_sorted _, ?_⟩
    have hnd : (l ++ [version]).Nodup :=
      hv.2.append (List.nodup_singleton version)
        (fun x hx hx2 => hmem ((List.mem_singleton.mp hx2) ▸ hx))
    exact hnd.perm (sortVersions_perm _).symm

theorem versOK_entryOf (idx : IndexDoc) (stem : String)
    (hinv : indexVersOK idx) : versOK (entryOf idx stem).versions := by
  unfold entryOf
  rcases he : alookup idx.images stem with _ | e0
  · exact ⟨List.sorted_nil, List.nodup_nil⟩
  · simpa using hinv stem e0 he

theorem entryOf_add_self (idx : IndexDoc) (stem : String) (version : Int)
    (mk mp : Option String) :
    entryOf (add_image_version idx stem version mk mp) stem =
      ⟨if version ∈ (entryOf idx stem).versions then (entryOf idx stem).versions
          else sortVersions ((entryOf idx stem).versions ++ [version]),
        match mk, mp with
        | some k, some pa =>
          if k ≠ "" ∧ pa ≠ "" then aset (entryOf idx stem).matrices k pa
          else (entryOf idx stem).matrices
        | _, _ => (entryOf idx stem).matrices⟩ := by
  unfold entryOf
  rw [add_lookup_self]
  rfl

theorem indexVersOK_add (idx : IndexDoc) (stem : String) (version : Int)
    (mk mp : Option String) (hinv : indexVersOK idx) :
    indexVersOK (add_image_version idx stem version mk mp) := by
  intro s e hse
  by_cases hs : s = stem
  · subst hs
    rw [add_lookup_self] at hse
    obtain rfl := Option.some.inj hse
    exact versOK_add _ _ (versOK_entryOf idx s hinv)
  · rw [add_lookup_ne idx stem version mk mp s hs] at hse
    exact hinv s e hse

/-- C8: adding the same version twice leaves the stem's versions list
unchanged by the second call and containing the version exactly once, and
every `add_image_version` call preserves the sorted-ascending,
duplicate-free invariant of every versions list in the document. -/
theorem c8_version_idempotent_sorted (idx : IndexDoc) (stem : String) (version : Int)
    (mk mp mk2 mp2 : Option String) (hinv : indexVersOK idx) :
    indexVersOK (add_image_version idx stem version mk mp) ∧
    indexVersOK (add_image_version (add_image_version idx stem version mk mp)
      stem version mk2 mp2) ∧
    (entryOf (add_image_version (add_image_version idx stem version mk mp)
        stem version mk2 mp2) stem).versions =
      (entryOf (add_image_version idx stem version mk mp) stem).versions ∧
    (entryOf (add_image_version (add_image_version idx stem version mk mp)
        stem version mk2 mp2) stem).versions.count version = 1 := by
  have h1 : indexVersOK (add_image_version idx stem version mk mp) :=
    indexVersOK_add idx stem version mk mp hinv
  have hmem1 : version ∈ (entryOf (add_image_version idx stem version mk mp) stem).versions := by
    rw [entryOf_add_self]
    exact mem_add_versions_new _ _
  have heq : (entryOf (add_image_version (add_image_version idx stem version mk mp)
      stem version mk2 mp2) stem).versions =
      (entryOf (add_image_version idx stem version mk mp) stem).versions := by
    rw [entryOf_add_self]
    simp only
    rw [if_pos hmem1]
  refine ⟨h1, indexVersOK_add _ stem version mk2 mp2 h1, heq, ?_⟩
  rw [heq]
  have hnd : (entryOf (add_image_version idx stem version mk mp) stem).versions.Nodup := by
    rw [entryOf_add_self]
    exact (versOK_add _ _ (versOK_entryOf idx stem hinv)).2
  exact List.count_eq_one_of_mem hnd hmem1

/-- C8 witness: the idempotence statement evaluated on the empty index with
version `3` and no matrix arguments. -/
theorem c8_version_idempotent_sorted_witness :
    indexVersOK (add_image_version ⟨[]⟩ "img" 3 none none) ∧
    indexVersOK (add_image_version (add_image_version ⟨[]⟩ "img" 3 none none)
      "img" 3 none none) ∧
    (entryOf (add_image_version (add_image_version ⟨[]⟩ "img" 3 none none)
        "img" 3 none none) "img").versions =
      (entryOf (add_image_version ⟨[]⟩ "img" 3 none none) "img").versions ∧
    (entryOf (add_image_version (add_image_version ⟨[]⟩ "img" 3 none none)
        "img" 3 none none) "img").versions.count 3 = 1 :=
  c8_version_idempotent_sorted ⟨[]⟩ "img" 3 none none none none
    (fun _ _ hse => Option.noConfusion hse)

/-- C10: `add_image_version` leaves every other collection's entry
untouched; within the stem's entry it leaves every edge mapping other than
the effectively supplied key untouched; its versions list is, as a
multiset, either unchanged or the old list plus the one new version; and
when an effective key and path are supplied, exactly that mapping is set to
that path. -/
theorem c10_frame_effect (idx : IndexDoc) (stem : String) (version : Int)
    (mk mp : Option String) (s k p2 : String) (hs : s ≠ stem) :
    alookup (add_image_version idx stem version mk mp).images s =
      alookup idx.images s ∧
    (effKey mk mp ≠ some k →
      alookup (entryOf (add_image_version idx stem version mk mp) stem).matrices k =
        alookup (entryOf idx stem).matrices k) ∧
    (entryOf (add_image_version idx stem version mk mp) stem).versions.Perm
      (if version ∈ (entryOf idx stem).versions then (entryOf idx stem).versions
        else version :: (entryOf idx stem).versions) ∧
    (effKey mk mp = some k → mp = some p2 →
      alookup (entryOf (add_image_version idx stem version mk mp) stem).matrices k =
        some p2) := by
  refine ⟨add_lookup_ne idx stem version mk mp s hs, ?_, ?_, ?_⟩
  · intro hne
    rw [entryOf_add_self]
    rcases mk with _ | k0
    · rfl
    · rcases mp with _ | p0
      · rfl
      · dsimp only
        by_cases hef : k0 ≠ "" ∧ p0 ≠ ""
        · rw [if_pos hef]
          have hkk : k ≠ k0 := by
            intro hcon
            exact hne (by simp [effKey, hef, hcon])
          exact alookup_aset_ne _ k0 k p0 hkk
        · rw [if_neg hef]
  · rw [entryOf_add_self]
    dsimp only
    by_cases hmem : version ∈ (entryOf idx stem).versions
    · rw [if_pos hmem, if_pos hmem]
    · rw [if_neg hmem, if_neg hmem]
      exact (sortVersions_perm _).trans (List.perm_append_singleton _ _)
  · intro hek hmp
    rw [entryOf_add_self]
    rcases mk with _ | k0
    · exact absurd hek (by simp [effKey])
    · rcases mp with _ | p0
      · exact absurd hek (by simp [effKey])
      · have hp2 : p0 = p2 := Option.some.inj hmp
        subst hp2
        dsimp only
        simp only [effKey] at hek
        by_cases hef : k0 ≠ "" ∧ p0 ≠ ""
        · rw [if_pos hef] at hek ⊢
          obtain rfl := Option.some.inj hek
          exact alookup_aset_self _ _ _
        · rw [if_neg hef] at hek
          exact Option.noConfusion hek

/-- C10 witness: the frame statement evaluated on a concrete one-entry
index, another stem, and a concrete effective key and path. -/
theorem c10_frame_effect_witness :
    alookup (add_image_version ⟨[("img", ⟨[1], []⟩)]⟩ "img" 2
        (some "1->2") (some "q")).images "other" =
      alookup (IndexDoc.mk [("img", ⟨[1], []⟩)]).images "other" ∧
    (effKey (some "1->2") (some "q") ≠ some "0->1" →
      alookup (entryOf (add_image_version ⟨[("img", ⟨[1], []⟩)]⟩ "img" 2
          (some "1->2") (some "q")) "img").matrices "0->1" =
        alookup (entryOf ⟨[("img", ⟨[1], []⟩)]⟩ "img").matrices "0->1") ∧
    (entryOf (add_image_version ⟨[("img", ⟨[1], []⟩)]⟩ "img" 2
        (some "1->2") (some "q")) "img").versions.Perm
      (if (2 : Int) ∈ (entryOf ⟨[("img", ⟨[1], []⟩)]⟩ "img").versions then
          (entryOf ⟨[("img", ⟨[1], []⟩)]⟩ "img").versions
        else 2 :: (entryOf ⟨[("img", ⟨[1], []⟩)]⟩ "img").versions) ∧
    (effKey (some "1->2") (some "q") = some "0->1" → some "q" = some "q" →
      alookup (entryOf (add_image_version ⟨[("img", ⟨[1], []⟩)]⟩ "img" 2
          (some "1->2") (some "q")) "img").matrices "0->1" = some "q") :=
  c10_frame_effect ⟨[("img", ⟨[1], []⟩)]⟩ "img" 2 (some "1->2") (some "q")
    "other" "0->1" "q" (by decide)
